import Mathlib

/-!
Shallow embedding of the clustering pipeline of `janus_clustering.py`
(ingestion of neighbor query batches, distance matrix construction, the
reported cluster count, and the grouping of frames into output segments),
together with theorems settling the specification claims.

Conventions:
* Milvus item ids are `Nat`; cluster labels are `Int` (noise is `-1`);
  timestamps and neighbor distances are `ℚ`.
* Python dicts are modelled as association lists in key insertion order,
  with assignment to an existing key keeping its position (CPython
  semantics for `dict`).
* `np.inf` (the "unreachable" sentinel of the distance matrix) is `⊤` in
  `WithTop ℚ`; every real edge distance is a finite rational.
* A lookup `ids2index[...]` that would raise `KeyError` in Python makes the
  matrix construction return `none`.
-/

namespace JanusClustering

/-- Python `d[k] = v` on a dict modelled as an association list: an existing
key keeps its position and gets the new value, a new key is appended at the
end (insertion order). -/
def dictSet (d : List (Nat × List (Nat × ℚ))) (k : Nat) (v : List (Nat × ℚ)) :
    List (Nat × List (Nat × ℚ)) :=
  if d.any (fun p => p.1 == k) then
    d.map (fun p => if p.1 = k then (k, v) else p)
  else d ++ [(k, v)]

/-- The ingestion loop of `cluster` (lines 140-166): each batch contributes
its ids to the accumulated `ids` list via `ids.extend(batch_ids)` and, per
queried id, the dict entry `dist[batch_id]` is set to that id's neighbor
result list `[(neighbor_id, distance), ...]`. -/
def ingestBatches (batches : List (List (Nat × List (Nat × ℚ)))) :
    List Nat × List (Nat × List (Nat × ℚ)) :=
  batches.foldl
    (fun acc batch =>
      (acc.1 ++ batch.map Prod.fst,
       batch.foldl (fun d p => dictSet d p.1 p.2) acc.2))
    ([], [])

/-- Helper for `ids2index`: position lookup starting at offset `k`, where a
later occurrence of `x` overrides an earlier one (a Python dict
comprehension writes keys left to right, so the last write wins). -/
def ids2indexFrom : List Nat → Nat → Nat → Option Nat
  | [], _, _ => none
  | a :: rest, k, x =>
    match ids2indexFrom rest (k + 1) x with
    | some i => some i
    | none => if x = a then some k else none

/-- `ids2index = {id: idx for idx, id in enumerate(ids)}` (line 170), as a
partial lookup function; `none` models a `KeyError`. -/
def ids2index (ids : List Nat) (x : Nat) : Option Nat :=
  ids2indexFrom ids 0 x

/-- A single NumPy element assignment `m[i][j] = v` on the matrix viewed as
a total function on index pairs. -/
def setEntry (m : Nat → Nat → WithTop ℚ) (i j : Nat) (v : WithTop ℚ) :
    Nat → Nat → WithTop ℚ :=
  fun a b => if a = i ∧ b = j then v else m a b

/-- The inner loop of the matrix fill (lines 174-175): for each neighbor
result `(dst, d)` of `src`, write `m[ids2index[src]][ids2index[dst]] = d`;
a failed index lookup is a `KeyError`, i.e. `none`. -/
def fillRow (idx : Nat → Option Nat) (src : Nat) :
    List (Nat × ℚ) → (Nat → Nat → WithTop ℚ) → Option (Nat → Nat → WithTop ℚ)
  | [], m => some m
  | (dst, d) :: rest, m =>
    match idx src, idx dst with
    | some i, some j => fillRow idx src rest (setEntry m i j (d : WithTop ℚ))
    | _, _ => none

/-- The outer loop of the matrix fill (line 173): iterate over the dict
`dist` in key insertion order, filling each source's row of writes. -/
def fillEntries (idx : Nat → Option Nat) :
    List (Nat × List (Nat × ℚ)) → (Nat → Nat → WithTop ℚ) →
    Option (Nat → Nat → WithTop ℚ)
  | [], m => some m
  | (src, row) :: rest, m =>
    match fillRow idx src row m with
    | some m2 => fillEntries idx rest m2
    | none => none

/-- The dense distance matrix: its size and its entries (entries outside
`[0, n) × [0, n)` are never written and never read). -/
structure DistMatrix where
  n : Nat
  entry : Nat → Nat → WithTop ℚ

/-- Lines 170-175 of `cluster`: start from `np.full((len(ids), len(ids)),
np.inf)` and perform every edge write in iteration order. -/
def buildMatrix (ids : List Nat) (dists : List (Nat × List (Nat × ℚ))) :
    Option DistMatrix :=
  (fillEntries (ids2index ids) dists (fun _ _ => (⊤ : WithTop ℚ))).map
    (fun e => ⟨ids.length, e⟩)

/-- Line 186: the diagnostic printed after clustering is
`len(set(labels)) - 1`. -/
def reportedClusterCount (labels : List Int) : Int :=
  (labels.dedup.length : Int) - 1

/-- Modelled from the spec: "cluster count = number of distinct non-noise
labels" (§4.3). This is the spec-side quantity the reported diagnostic is
compared against. -/
def distinctNonNoiseCount (labels : List Int) : Nat :=
  (labels.dedup.filter (fun l => l != -1)).length

/-- One step of the grouping loop of `main` (lines 244-247): append frame
index `i` to the dict entry of `label`, creating the entry (at the end of
the insertion order) if absent. -/
def dictAppend (g : List (Int × List Nat)) (label : Int) (i : Nat) :
    List (Int × List Nat) :=
  if g.any (fun p => p.1 == label) then
    g.map (fun p => if p.1 = label then (p.1, p.2 ++ [i]) else p)
  else g ++ [(label, [i])]

/-- `for i, label in enumerate(labels)` with accumulator `g` and running
index `i`. -/
def cgAux : List Int → Nat → List (Int × List Nat) → List (Int × List Nat)
  | [], _, g => g
  | a :: rest, i, g => cgAux rest (i + 1) (dictAppend g a i)

/-- The `cluster_groups` dict of `main` (lines 243-247): labels keyed in
first-appearance order, each holding the increasing list of frame indices
carrying that label. -/
def clusterGroups (labels : List Int) : List (Int × List Nat) :=
  cgAux labels 0 []

/-- An emitted segment: the data `main` derives per non-noise cluster group
(label, start/end timestamp, contained frame indices). -/
structure Segment where
  label : Int
  start_time : ℚ
  end_time : ℚ
  frame_indices : List Nat
deriving DecidableEq, Repr

/-- The segment emission loop of `main` (lines 250-256): iterate the groups
in dict order, skip the noise label `-1`, and take
`start_time = timestamps[frame_indices[0]]`,
`end_time = timestamps[frame_indices[-1]]`. -/
def makeSegments (labels : List Int) (timestamps : List ℚ) : List Segment :=
  (clusterGroups labels).filterMap (fun g =>
    if g.1 = -1 then none
    else some ⟨g.1, timestamps.getD (g.2.headD 0) 0,
               timestamps.getD (g.2.getLastD 0) 0, g.2⟩)

/-- Proof-side description of a sequence of matrix writes `(i, j, value)`
applied left to right. -/
def applyWrites (m : Nat → Nat → WithTop ℚ) (ws : List (Nat × Nat × ℚ)) :
    Nat → Nat → WithTop ℚ :=
  ws.foldl (fun acc w => setEntry acc w.1 w.2.1 (w.2.2 : WithTop ℚ)) m

/-- The writes contributed by one source's dict entry, under index lookup
`idx` (all lookups assumed to succeed when this is used). -/
def rowWrites (idx : Nat → Option Nat) (p : Nat × List (Nat × ℚ)) :
    List (Nat × Nat × ℚ) :=
  p.2.map (fun q => ((idx p.1).getD 0, (idx q.1).getD 0, q.2))

/-- All writes of the matrix fill, in execution order. -/
def allWrites (idx : Nat → Option Nat) (dists : List (Nat × List (Nat × ℚ))) :
    List (Nat × Nat × ℚ) :=
  (dists.map (rowWrites idx)).flatten

/-- The spec's notion of pairwise-disjoint frame-index *ranges*: the closed
index intervals `[first, last]` of two distinct segments do not overlap. -/
def segRangesDisjoint (segs : List Segment) : Prop :=
  segs.Pairwise (fun s t =>
    s.frame_indices.getLastD 0 < t.frame_indices.headD 0 ∨
    t.frame_indices.getLastD 0 < s.frame_indices.headD 0)

instance (segs : List Segment) : Decidable (segRangesDisjoint segs) :=
  List.instDecidablePairwise segs

/-- The segment derived from one cluster-group entry, as `main` builds it. -/
def segOf (timestamps : List ℚ) (g : Int × List Nat) : Segment :=
  ⟨g.1, timestamps.getD (g.2.headD 0) 0, timestamps.getD (g.2.getLastD 0) 0, g.2⟩

/-- The invariant of the grouping dict relative to the processed label
array: distinct keys; every group nonempty, strictly increasing, and
holding exactly positions of its own label; every labelled position
recorded somewhere; groups ordered by their first (head) index. -/
def GroupsInv (labels : List Int) (g : List (Int × List Nat)) : Prop :=
  ((g.map Prod.fst).Nodup) ∧
  (∀ p ∈ g, p.2 ≠ [] ∧ p.2.Sorted (· < ·) ∧ ∀ i ∈ p.2, labels.get? i = some p.1) ∧
  (∀ i a, labels.get? i = some a → ∃ p ∈ g, p.1 = a ∧ i ∈ p.2) ∧
  (g.Pairwise (fun p q => p.2.headD 0 < q.2.headD 0))

theorem applyWrites_nil (m : Nat → Nat → WithTop ℚ) : applyWrites m [] = m := rfl

theorem applyWrites_cons (m : Nat → Nat → WithTop ℚ) (w : Nat × Nat × ℚ)
    (ws : List (Nat × Nat × ℚ)) :
    applyWrites m (w :: ws) = applyWrites (setEntry m w.1 w.2.1 (w.2.2 : WithTop ℚ)) ws := rfl

theorem applyWrites_append (m : Nat → Nat → WithTop ℚ) (ws1 ws2 : List (Nat × Nat × ℚ)) :
    applyWrites m (ws1 ++ ws2) = applyWrites (applyWrites m ws1) ws2 :=
  List.foldl_append _ _ _ _

theorem setEntry_hit (m : Nat → Nat → WithTop ℚ) (i j : Nat) (v : WithTop ℚ) :
    setEntry m i j v i j = v := if_pos ⟨rfl, rfl⟩

theorem setEntry_miss (m : Nat → Nat → WithTop ℚ) (i j : Nat) (v : WithTop ℚ)
    (a b : Nat) (h : ¬(a = i ∧ b = j)) : setEntry m i j v a b = m a b := if_neg h

/-- A run of writes none of which targets cell `(a, b)` leaves that cell
unchanged. -/
theorem applyWrites_no_hit (m : Nat → Nat → WithTop ℚ) (ws : List (Nat × Nat × ℚ))
    (a b : Nat) (h : ∀ w ∈ ws, ¬(w.1 = a ∧ w.2.1 = b)) :
    applyWrites m ws a b = m a b := by
  induction ws generalizing m with
  | nil => rfl
  | cons w ws ih =>
    rw [applyWrites_cons, ih _ (fun w' hw' => h w' (List.mem_cons_of_mem _ hw'))]
    exact setEntry_miss _ _ _ _ _ _
      (fun hab => h w (List.mem_cons_self _ _) ⟨hab.1.symm ▸ rfl, hab.2.symm ▸ rfl⟩)

/-- The value of a cell after a run of writes is the value of the last write
that targets it. -/
theorem applyWrites_last_hit (m : Nat → Nat → WithTop ℚ) (ws1 ws2 : List (Nat × Nat × ℚ))
    (a b : Nat) (d : ℚ) (h : ∀ w ∈ ws2, ¬(w.1 = a ∧ w.2.1 = b)) :
    applyWrites m (ws1 ++ (a, b, d) :: ws2) a b = (d : WithTop ℚ) := by
  rw [applyWrites_append, applyWrites_cons, applyWrites_no_hit _ _ _ _ h]
  exact setEntry_hit _ _ _ _

/-- When every lookup succeeds, one row of the fill loop is the
corresponding run of writes. -/
theorem fillRow_eq (idx : Nat → Option Nat) (src i : Nat) (row : List (Nat × ℚ))
    (hsrc : idx src = some i) (hrow : ∀ q ∈ row, (idx q.1).isSome)
    (m : Nat → Nat → WithTop ℚ) :
    fillRow idx src row m =
      some (applyWrites m (row.map (fun q => (i, (idx q.1).getD 0, q.2)))) := by
  induction row generalizing m with
  | nil => rfl
  | cons q rest ih =>
    obtain ⟨dst, d⟩ := q
    obtain ⟨j, hj⟩ := Option.isSome_iff_exists.mp (hrow _ (List.mem_cons_self _ _))
    simp only [fillRow, hsrc, hj]
    rw [ih (fun q hq => hrow q (List.mem_cons_of_mem _ hq))]
    simp [applyWrites_cons, hj]

/-- When every lookup succeeds, the whole fill loop is the concatenated run
of writes. -/
theorem fillEntries_eq (idx : Nat → Option Nat) (dists : List (Nat × List (Nat × ℚ)))
    (h : ∀ p ∈ dists, (idx p.1).isSome ∧ ∀ q ∈ p.2, (idx q.1).isSome)
    (m : Nat → Nat → WithTop ℚ) :
    fillEntries idx dists m = some (applyWrites m (allWrites idx dists)) := by
  induction dists generalizing m with
  | nil => simp [fillEntries, allWrites, applyWrites]
  | cons p rest ih =>
    obtain ⟨src, row⟩ := p
    obtain ⟨hsrc, hrow⟩ := h _ (List.mem_cons_self _ _)
    obtain ⟨i, hi⟩ := Option.isSome_iff_exists.mp hsrc
    have h1 := fillRow_eq idx src i row hi hrow m
    simp only [fillEntries, h1, ih (fun p hp => h p (List.mem_cons_of_mem _ hp))]
    simp only [allWrites, List.map_cons, List.flatten_cons, applyWrites_append]
    simp [rowWrites, hi]

theorem ids2indexFrom_eq_none (ids : List Nat) (k x : Nat) :
    ids2indexFrom ids k x = none ↔ x ∉ ids := by
  induction ids generalizing k with
  | nil => simp [ids2indexFrom]
  | cons a rest ih =>
    simp only [ids2indexFrom]
    cases h : ids2indexFrom rest (k + 1) x with
    | some i =>
      have : x ∈ rest := by
        by_contra hx
        exact absurd ((ih (k + 1)).mpr hx) (by simp [h])
      simp [List.mem_cons, this]
    | none =>
      have hx : x ∉ rest := (ih (k + 1)).mp h
      by_cases hxa : x = a <;> simp [hxa, hx]

theorem ids2indexFrom_some (ids : List Nat) (k x i : Nat) (hnd : ids.Nodup) :
    ids2indexFrom ids k x = some i ↔ ∃ j, i = k + j ∧ ids.get? j = some x := by
  induction ids generalizing k i with
  | nil => simp [ids2indexFrom]
  | cons a rest ih =>
    obtain ⟨ha, hrest⟩ := List.nodup_cons.mp hnd
    by_cases hxa : x = a
    · subst hxa
      have hnone : ids2indexFrom rest (k + 1) x = none :=
        (ids2indexFrom_eq_none rest (k + 1) x).mpr ha
      simp only [ids2indexFrom, hnone, if_true]
      constructor
      · intro h
        obtain rfl : k = i := Option.some_inj.mp h
        exact ⟨0, by omega, rfl⟩
      · rintro ⟨j, hij, hj⟩
        cases j with
        | zero => exact congrArg some (by omega)
        | succ j =>
          rw [List.get?_cons_succ] at hj
          exact absurd (List.get?_mem hj) ha
    · cases h : ids2indexFrom rest (k + 1) x with
      | some i2 =>
        simp only [ids2indexFrom, h]
        obtain ⟨j0, hi2, hj0⟩ := (ih (k + 1) i2 hrest).mp h
        constructor
        · intro hsome
          obtain rfl : i2 = i := Option.some_inj.mp hsome
          exact ⟨j0 + 1, by omega, by rw [List.get?_cons_succ]; exact hj0⟩
        · rintro ⟨j, hij, hj⟩
          cases j with
          | zero =>
            rw [List.get?_cons_zero] at hj
            exact absurd (Option.some_inj.mp hj).symm hxa
          | succ j =>
            rw [List.get?_cons_succ] at hj
            have h2 := (ih (k + 1) i hrest).mpr ⟨j, by omega, hj⟩
            rw [h] at h2
            exact h2
      | none =>
        simp only [ids2indexFrom, h]
        rw [if_neg hxa]
        have hx : x ∉ rest := (ids2indexFrom_eq_none rest (k + 1) x).mp h
        constructor
        · intro hfalse; cases hfalse
        · rintro ⟨j, hij, hj⟩
          cases j with
          | zero =>
            rw [List.get?_cons_zero] at hj
            exact absurd (Option.some_inj.mp hj).symm hxa
          | succ j =>
            rw [List.get?_cons_succ] at hj
            exact absurd (List.get?_mem hj) hx

theorem ids2index_some (ids : List Nat) (x i : Nat) (hnd : ids.Nodup) :
    ids2index ids x = some i ↔ ids.get? i = some x := by
  unfold ids2index
  rw [ids2indexFrom_some ids 0 x i hnd]
  constructor
  · rintro ⟨j, hij, hj⟩; cases hij; simpa using hj
  · intro h; exact ⟨i, by omega, h⟩

theorem ids2index_isSome (ids : List Nat) (x : Nat) (h : x ∈ ids) :
    (ids2index ids x).isSome := by
  cases hh : ids2index ids x with
  | some _ => rfl
  | none => exact absurd ((ids2indexFrom_eq_none ids 0 x).mp hh) (not_not_intro h)

theorem ids2index_inj (ids : List Nat) (x y i : Nat) (hnd : ids.Nodup)
    (hx : ids2index ids x = some i) (hy : ids2index ids y = some i) : x = y := by
  rw [ids2index_some ids x i hnd] at hx
  rw [ids2index_some ids y i hnd] at hy
  rw [hx] at hy
  exact Option.some_inj.mp hy

theorem mem_allWrites (idx : Nat → Option Nat) (dists : List (Nat × List (Nat × ℚ)))
    (w : Nat × Nat × ℚ) :
    w ∈ allWrites idx dists ↔
      ∃ p ∈ dists, ∃ q ∈ p.2, w = ((idx p.1).getD 0, (idx q.1).getD 0, q.2) := by
  simp only [allWrites, List.mem_flatten, List.mem_map, rowWrites]
  constructor
  · rintro ⟨l, ⟨p, hp, rfl⟩, hw⟩
    obtain ⟨q, hq, rfl⟩ := List.mem_map.mp hw
    exact ⟨p, hp, q, hq, rfl⟩
  · rintro ⟨p, hp, q, hq, rfl⟩
    exact ⟨_, ⟨p, hp, rfl⟩, List.mem_map.mpr ⟨q, hq, rfl⟩⟩

theorem allWrites_append (idx : Nat → Option Nat) (l1 l2 : List (Nat × List (Nat × ℚ))) :
    allWrites idx (l1 ++ l2) = allWrites idx l1 ++ allWrites idx l2 := by
  simp [allWrites]

theorem allWrites_cons (idx : Nat → Option Nat) (p : Nat × List (Nat × ℚ))
    (l : List (Nat × List (Nat × ℚ))) :
    allWrites idx (p :: l) = rowWrites idx p ++ allWrites idx l := by
  simp [allWrites]

/-- When every id referenced by the edge mapping is in the population, the
matrix build succeeds and equals the sequential run of all edge writes over
the all-`∞` initial matrix. -/
theorem buildMatrix_some (ids : List Nat) (dists : List (Nat × List (Nat × ℚ)))
    (hmem : ∀ p ∈ dists, p.1 ∈ ids ∧ ∀ q ∈ p.2, q.1 ∈ ids) :
    buildMatrix ids dists =
      some ⟨ids.length,
        applyWrites (fun _ _ => (⊤ : WithTop ℚ)) (allWrites (ids2index ids) dists)⟩ := by
  unfold buildMatrix
  rw [fillEntries_eq _ _ (fun p hp => ⟨ids2index_isSome ids p.1 (hmem p hp).1,
    fun q hq => ids2index_isSome ids q.1 ((hmem p hp).2 q hq)⟩)]
  rfl

/-- C3: the built N×N matrix has each observed edge's distance at
`[index(src)][index(dst)]`, the unreachable sentinel `∞` at every pair with
no corresponding edge, and is not symmetrized: an edge `(A, B, d)` with no
reverse edge yields `entry iA iB = d` while `entry iB iA` stays `∞`. -/
theorem matrixBuilder_correct (ids : List Nat) (dists : List (Nat × List (Nat × ℚ)))
    (hids : ids.Nodup)
    (hkeys : (dists.map Prod.fst).Nodup)
    (hrows : ∀ p ∈ dists, p.1 ∈ ids ∧ (p.2.map Prod.fst).Nodup ∧ ∀ q ∈ p.2, q.1 ∈ ids) :
    ∃ M, buildMatrix ids dists = some M ∧ M.n = ids.length ∧
      (∀ src row dst d i j, (src, row) ∈ dists → (dst, d) ∈ row →
        ids2index ids src = some i → ids2index ids dst = some j →
        M.entry i j = (d : WithTop ℚ)) ∧
      (∀ i j, (∀ src row dst d, (src, row) ∈ dists → (dst, d) ∈ row →
          ¬(ids2index ids src = some i ∧ ids2index ids dst = some j)) →
        M.entry i j = ⊤) ∧
      (∀ A rowA B d iA iB, (A, rowA) ∈ dists → (B, d) ∈ rowA →
        ids2index ids A = some iA → ids2index ids B = some iB →
        (∀ rowB d2, (B, rowB) ∈ dists → (A, d2) ∉ rowB) →
        M.entry iA iB = (d : WithTop ℚ) ∧ M.entry iB iA = ⊤) := by
  classical
  have hmem : ∀ p ∈ dists, p.1 ∈ ids ∧ ∀ q ∈ p.2, q.1 ∈ ids :=
    fun p hp => ⟨(hrows p hp).1, (hrows p hp).2.2⟩
  set e : Nat → Nat → WithTop ℚ :=
    applyWrites (fun _ _ => (⊤ : WithTop ℚ)) (allWrites (ids2index ids) dists) with he
  have hedge : ∀ src row dst d i j, (src, row) ∈ dists → (dst, d) ∈ row →
      ids2index ids src = some i → ids2index ids dst = some j →
      e i j = (d : WithTop ℚ) := by
    intro src row dst d i j hdl hql hi hj
    obtain ⟨d1, d2, hd⟩ := List.append_of_mem hdl
    obtain ⟨r1, r2, hr⟩ := List.append_of_mem hql
    have hsrcrow : (src, row) ∈ dists := hdl
    have hsrc_not_d2 : src ∉ d2.map Prod.fst := by
      have h2 : (((src, row) :: d2).map Prod.fst).Nodup := by
        rw [hd, List.map_append] at hkeys
        exact hkeys.of_append_right
      exact (List.nodup_cons.mp h2).1
    have hdst_not_r2 : dst ∉ r2.map Prod.fst := by
      have hrn := (hrows _ hsrcrow).2.1
      rw [hr, List.map_append] at hrn
      exact (List.nodup_cons.mp hrn.of_append_right).1
    rw [he, hd, allWrites_append, allWrites_cons]
    have hrw : rowWrites (ids2index ids) (src, row) =
        (r1.map (fun q => (i, ((ids2index ids) q.1).getD 0, q.2))) ++
          (i, j, d) :: (r2.map (fun q => (i, ((ids2index ids) q.1).getD 0, q.2))) := by
      simp [rowWrites, hr, hi, hj]
    rw [hrw]
    simp only [List.append_assoc, List.cons_append]
    rw [← List.append_assoc]
    apply applyWrites_last_hit
    intro w hw hhit
    rcases List.mem_append.mp hw with hw2 | hwd2
    · obtain ⟨q, hq, rfl⟩ := List.mem_map.mp hw2
      have hqin : q ∈ row := by
        rw [hr]
        exact List.mem_append_right _ (List.mem_cons_of_mem _ hq)
      obtain ⟨jq, hjq⟩ := Option.isSome_iff_exists.mp
        (ids2index_isSome ids q.1 ((hmem _ hsrcrow).2 q hqin))
      have hqd : q.1 = dst := by
        apply ids2index_inj ids q.1 dst j hids _ hj
        rw [hjq]
        have h2 := hhit.2
        simp only [hjq, Option.getD_some] at h2
        rw [h2]
      exact hdst_not_r2 (hqd ▸ List.mem_map.mpr ⟨q, hq, rfl⟩)
    · rw [mem_allWrites] at hwd2
      obtain ⟨p, hp, q, hq, rfl⟩ := hwd2
      have hpmem : p ∈ dists := by
        rw [hd]
        exact List.mem_append_right _ (List.mem_cons_of_mem _ hp)
      obtain ⟨ip, hip⟩ := Option.isSome_iff_exists.mp
        (ids2index_isSome ids p.1 (hmem p hpmem).1)
      have hps : p.1 = src := by
        apply ids2index_inj ids p.1 src i hids _ hi
        rw [hip]
        have h1 := hhit.1
        simp only [hip, Option.getD_some] at h1
        rw [h1]
      exact hsrc_not_d2 (hps ▸ List.mem_map.mpr ⟨p, hp, rfl⟩)
  have hsent : ∀ i j, (∀ src row dst d, (src, row) ∈ dists → (dst, d) ∈ row →
      ¬(ids2index ids src = some i ∧ ids2index ids dst = some j)) →
      e i j = ⊤ := by
    intro i j hno
    rw [he]
    apply applyWrites_no_hit
    intro w hw hhit
    rw [mem_allWrites] at hw
    obtain ⟨p, hp, q, hq, rfl⟩ := hw
    obtain ⟨ip, hip⟩ := Option.isSome_iff_exists.mp
      (ids2index_isSome ids p.1 (hmem p hp).1)
    obtain ⟨jq, hjq⟩ := Option.isSome_iff_exists.mp
      (ids2index_isSome ids q.1 ((hmem p hp).2 q hq))
    refine hno p.1 p.2 q.1 q.2 hp hq ⟨?_, ?_⟩
    · rw [hip]
      have h1 := hhit.1
      simp only [hip, Option.getD_some] at h1
      rw [h1]
    · rw [hjq]
      have h2 := hhit.2
      simp only [hjq, Option.getD_some] at h2
      rw [h2]
  refine ⟨⟨ids.length, e⟩, by rw [buildMatrix_some ids dists hmem], rfl,
    hedge, hsent, ?_⟩
  intro A rowA B d iA iB hA hB hiA hiB hnoRev
  refine ⟨hedge A rowA B d iA iB hA hB hiA hiB, hsent iB iA ?_⟩
  rintro src row dst d2 hsrc hq ⟨h1, h2⟩
  have hsB : src = B := ids2index_inj ids src B iB hids h1 hiB
  have hdA : dst = A := ids2index_inj ids dst A iA hids h2 hiA
  subst hsB hdA
  exact hnoRev row d2 hsrc hq

/-- A nonempty filtered list decomposes the original list at the last
element satisfying the predicate. -/
theorem filter_last_decomp {α : Type} (p : α → Bool) (l : List α) (dflt : α)
    (hne : l.filter p ≠ []) :
    ∃ l1 a l2, l = l1 ++ a :: l2 ∧ p a = true ∧ (∀ b ∈ l2, p b = false) ∧
      (l.filter p).getLastD dflt = a := by
  induction l using List.reverseRecOn with
  | nil => simp at hne
  | append_singleton l a ih =>
    by_cases hpa : p a
    · refine ⟨l, a, [], rfl, hpa, by simp, ?_⟩
      rw [List.filter_append, List.getLastD_eq_getLast?]
      simp [hpa, List.getLast?_concat]
    · have hfa : (l ++ [a]).filter p = l.filter p := by
        rw [List.filter_append]
        simp [hpa]
      rw [hfa] at hne ⊢
      obtain ⟨l1, x, l2, hdec, hpx, hl2, hlast⟩ := ih hne
      refine ⟨l1, x, l2 ++ [a], by rw [hdec]; simp, hpx, ?_, hlast⟩
      intro b hb
      rcases List.mem_append.mp hb with h | h
      · exact hl2 b h
      · rw [List.mem_singleton.mp h]
        simpa using hpa

/-- C9: a neighbor list containing the same target id more than once raises
no error, and the final entry at `(index src, index dst)` is the distance of
the last `(dst, _)` pair in list order (last write wins). -/
theorem duplicate_edges_last_write_wins (ids : List Nat)
    (dists : List (Nat × List (Nat × ℚ))) (src : Nat) (L : List (Nat × ℚ))
    (dst : Nat) (i j : Nat)
    (hids : ids.Nodup) (hkeys : (dists.map Prod.fst).Nodup)
    (hmem : ∀ p ∈ dists, p.1 ∈ ids ∧ ∀ q ∈ p.2, q.1 ∈ ids)
    (hsrc : (src, L) ∈ dists)
    (hi : ids2index ids src = some i) (hj : ids2index ids dst = some j)
    (hne : L.filter (fun q => q.1 == dst) ≠ []) :
    ∃ M, buildMatrix ids dists = some M ∧
      M.entry i j =
        (((L.filter (fun q => q.1 == dst)).getLastD (dst, 0)).2 : WithTop ℚ) := by
  obtain ⟨L1, q0, L2, hdecomp, hq0, hL2, hlast⟩ :=
    filter_last_decomp (fun q => q.1 == dst) L (dst, 0) hne
  obtain ⟨dst0, dlast⟩ := q0
  obtain rfl : dst0 = dst := by simpa using hq0
  rw [hlast]
  refine ⟨_, buildMatrix_some ids dists hmem, ?_⟩
  obtain ⟨d1, d2, hd⟩ := List.append_of_mem hsrc
  have hsrc_not_d2 : src ∉ d2.map Prod.fst := by
    have h2 : (((src, L) :: d2).map Prod.fst).Nodup := by
      rw [hd, List.map_append] at hkeys
      exact hkeys.of_append_right
    exact (List.nodup_cons.mp h2).1
  show applyWrites (fun _ _ => (⊤ : WithTop ℚ)) (allWrites (ids2index ids) dists) i j = _
  rw [hd, allWrites_append, allWrites_cons]
  have hrw : rowWrites (ids2index ids) (src, L) =
      (L1.map (fun q => (i, ((ids2index ids) q.1).getD 0, q.2))) ++
        (i, j, dlast) :: (L2.map (fun q => (i, ((ids2index ids) q.1).getD 0, q.2))) := by
    simp [rowWrites, hdecomp, hi, hj]
  rw [hrw]
  simp only [List.append_assoc, List.cons_append]
  rw [← List.append_assoc]
  apply applyWrites_last_hit
  intro w hw hhit
  rcases List.mem_append.mp hw with hw2 | hwd2
  · obtain ⟨q, hq, rfl⟩ := List.mem_map.mp hw2
    have hqin : q ∈ L := by
      rw [hdecomp]
      exact List.mem_append_right _ (List.mem_cons_of_mem _ hq)
    obtain ⟨jq, hjq⟩ := Option.isSome_iff_exists.mp
      (ids2index_isSome ids q.1 ((hmem _ hsrc).2 q hqin))
    have hqd : q.1 = dst0 := by
      apply ids2index_inj ids q.1 dst0 j hids _ hj
      rw [hjq]
      have h2 := hhit.2
      simp only [hjq, Option.getD_some] at h2
      rw [h2]
    have hfalse := hL2 q hq
    rw [hqd] at hfalse
    simp at hfalse
  · rw [mem_allWrites] at hwd2
    obtain ⟨p, hp, q, hq, rfl⟩ := hwd2
    have hpmem : p ∈ dists := by
      rw [hd]
      exact List.mem_append_right _ (List.mem_cons_of_mem _ hp)
    obtain ⟨ip, hip⟩ := Option.isSome_iff_exists.mp
      (ids2index_isSome ids p.1 (hmem p hpmem).1)
    have hps : p.1 = src := by
      apply ids2index_inj ids p.1 src i hids _ hi
      rw [hip]
      have h1 := hhit.1
      simp only [hip, Option.getD_some] at h1
      rw [h1]
    exact hsrc_not_d2 (hps ▸ List.mem_map.mpr ⟨p, hp, rfl⟩)

/-- Witness for C3 at a concrete input: two ids, one directed edge
`10 → 20` of distance `1/2`; the edge cell holds `1/2` and the reverse cell
stays `∞`. -/
theorem matrixBuilder_correct_witness :
    ∃ M, buildMatrix [10, 20] [(10, [(20, (1 : ℚ)/2)])] = some M ∧
      M.entry 0 1 = (((1 : ℚ)/2 : ℚ) : WithTop ℚ) ∧ M.entry 1 0 = ⊤ := by
  obtain ⟨M, hM, hn, hedge, hsent, hasym⟩ :=
    matrixBuilder_correct [10, 20] [(10, [(20, (1 : ℚ)/2)])]
      (by decide) (by decide) (by decide)
  refine ⟨M, hM, ?_⟩
  have := hasym 10 [(20, (1 : ℚ)/2)] 20 ((1 : ℚ)/2) 0 1
    (List.mem_cons_self _ _) (List.mem_cons_self _ _) (by decide) (by decide)
    (by intro rowB d2 h; simp at h)
  exact this

/-- Witness for C9 at a concrete input: the neighbor list of `10` mentions
`20` twice; the later distance `3` wins. -/
theorem duplicate_edges_witness :
    ∃ M, buildMatrix [10, 20] [(10, [(20, (1 : ℚ)/2), (20, 3)])] = some M ∧
      M.entry 0 1 = ((3 : ℚ) : WithTop ℚ) := by
  obtain ⟨M, hM, hval⟩ :=
    duplicate_edges_last_write_wins [10, 20] [(10, [(20, (1 : ℚ)/2), (20, 3)])]
      10 [(20, (1 : ℚ)/2), (20, 3)] 20 0 1
      (by decide) (by decide) (by simp; tauto) (List.mem_cons_self _ _) (by decide)
      (by decide) (by simp)
  refine ⟨M, hM, ?_⟩
  rw [hval]
  rfl

/-- C5 counterexample: an id (`5`) appearing in two batches, and an empty
batch sequence, are both accepted silently — ingestion returns a normal
result (the duplicated id appears twice in the population and its earlier
neighbor list is overwritten) instead of reporting an error. -/
theorem ingest_silent_on_duplicates :
    ingestBatches [[(5, [(6, 1)])], [(5, [])]] = ([5, 5], [(5, [])]) ∧
    ingestBatches [] = ([], []) := by
  constructor <;> rfl

/-- Helper: the population component of ingestion is the concatenation of
the batches' id lists, starting from any accumulator. -/
theorem ingest_foldl_fst (batches : List (List (Nat × List (Nat × ℚ))))
    (acc : List Nat × List (Nat × List (Nat × ℚ))) :
    (batches.foldl
      (fun acc batch =>
        (acc.1 ++ batch.map Prod.fst,
         batch.foldl (fun d p => dictSet d p.1 p.2) acc.2)) acc).1
      = acc.1 ++ (batches.map (fun b => b.map Prod.fst)).flatten := by
  induction batches generalizing acc with
  | nil => simp
  | cons b rest ih => simp [List.foldl_cons, ih, List.append_assoc]

/-- C5 amended: the ingestion stage performs no duplicate-id or emptiness
validation; it always completes, and the accumulated population is exactly
the concatenation of the batches' id lists, duplicates included (an empty
batch sequence thus yields the empty population without error). -/
theorem ingest_population_concat (batches : List (List (Nat × List (Nat × ℚ)))) :
    (ingestBatches batches).1 = (batches.map (fun b => b.map Prod.fst)).flatten := by
  unfold ingestBatches
  rw [ingest_foldl_fst]
  rfl

/-- C6: zero items yield an empty ingestion result, a 0×0 all-sentinel
distance matrix (with no error anywhere in the in-repo stages), and — the
label array of a 0-item clustering being empty by the §4.3 contract — an
empty segment list. -/
theorem empty_input_empty_pipeline :
    ingestBatches [] = ([], []) ∧
    (∃ M, buildMatrix [] [] = some M ∧ M.n = 0 ∧ ∀ i j, M.entry i j = ⊤) ∧
    makeSegments [] [] = [] :=
  ⟨rfl, ⟨⟨0, fun _ _ => ⊤⟩, rfl, rfl, fun _ _ => rfl⟩, rfl⟩

/-- C8: the Distance Matrix Builder and the Segment Reconstructor are
deterministic — two runs on identical inputs produce identical outputs. -/
theorem builder_reconstructor_deterministic
    (ids1 ids2 : List Nat) (dists1 dists2 : List (Nat × List (Nat × ℚ)))
    (labels1 labels2 : List Int) (ts1 ts2 : List ℚ)
    (h1 : ids1 = ids2) (h2 : dists1 = dists2)
    (h3 : labels1 = labels2) (h4 : ts1 = ts2) :
    buildMatrix ids1 dists1 = buildMatrix ids2 dists2 ∧
    makeSegments labels1 ts1 = makeSegments labels2 ts2 := by
  subst h1 h2 h3 h4
  exact ⟨rfl, rfl⟩

/-- Witness for C8 at a concrete input. -/
theorem builder_reconstructor_deterministic_witness :
    buildMatrix [7] [(7, [(7, 2)])] = buildMatrix [7] [(7, [(7, 2)])] ∧
    makeSegments [0, -1] [0, 1] = makeSegments [0, -1] [0, 1] :=
  builder_reconstructor_deterministic [7] [7] [(7, [(7, 2)])] [(7, [(7, 2)])]
    [0, -1] [0, -1] [0, 1] [0, 1] rfl rfl rfl rfl

/-- C2 counterexample: for the label array `[0]` (no noise label present)
the reported count `len(set(labels)) - 1` is `0`, but the number of
distinct non-noise labels is `1`. -/
theorem reported_count_cex :
    reportedClusterCount [0] = 0 ∧ distinctNonNoiseCount [0] = 1 ∧
    reportedClusterCount [0] ≠ (distinctNonNoiseCount [0] : Int) := by
  refine ⟨by decide, by decide, by decide⟩

/-- C2 amended: the reported cluster count is always
`(number of distinct labels) - 1`; it equals the number of distinct
non-noise labels exactly on label arrays in which the noise label `-1`
actually occurs. -/
theorem reported_count_eq_distinct_nonnoise (labels : List Int)
    (h : (-1 : Int) ∈ labels) :
    reportedClusterCount labels = (distinctNonNoiseCount labels : Int) := by
  unfold reportedClusterCount distinctNonNoiseCount
  have hnd : labels.dedup.Nodup := labels.nodup_dedup
  have hmem : (-1 : Int) ∈ labels.dedup := List.mem_dedup.mpr h
  have hcount : labels.dedup.count (-1) = 1 := List.count_eq_one_of_mem hnd hmem
  have hsplit := List.length_eq_countP_add_countP (p := fun l : Int => l != -1)
    (l := labels.dedup)
  have h2 : List.countP (fun a : Int => ¬(a != -1)) labels.dedup
      = List.countP (fun a : Int => a == -1) labels.dedup := by
    apply List.countP_congr
    intro a _
    by_cases h : a = -1 <;> simp [h]
  rw [h2, ← List.count_eq_countP, hcount] at hsplit
  rw [← List.countP_eq_length_filter]
  omega

/-- Witness for the amended C2 at a concrete input containing the noise
label. -/
theorem reported_count_eq_distinct_nonnoise_witness :
    (-1 : Int) ∈ ([0, -1, 3] : List Int) ∧
    reportedClusterCount [0, -1, 3] = (distinctNonNoiseCount [0, -1, 3] : Int) :=
  ⟨by decide, reported_count_eq_distinct_nonnoise [0, -1, 3] (by decide)⟩

theorem headD_mem {l : List Nat} (h : l ≠ []) (d : Nat) : l.headD d ∈ l := by
  cases l with
  | nil => exact absurd rfl h
  | cons x xs => exact List.mem_cons_self _ _

theorem getLastD_mem {l : List Nat} (h : l ≠ []) (d : Nat) : l.getLastD d ∈ l := by
  rw [List.getLastD_eq_getLast?, List.getLast?_eq_getLast l h, Option.getD_some]
  exact List.getLast_mem h

theorem headD_append_of_ne_nil {l : List Nat} (h : l ≠ []) (x d : Nat) :
    (l ++ [x]).headD d = l.headD d := by
  cases l with
  | nil => exact absurd rfl h
  | cons y ys => rfl

theorem sorted_append_singleton {l : List Nat} {n : Nat}
    (hs : l.Sorted (· < ·)) (hlt : ∀ i ∈ l, i < n) :
    (l ++ [n]).Sorted (· < ·) := by
  apply List.pairwise_append.mpr
  exact ⟨hs, List.pairwise_singleton _ _,
    fun a ha b hb => by rw [List.mem_singleton.mp hb]; exact hlt a ha⟩

theorem headD_le_getLastD {l : List Nat} (h : l ≠ []) (hs : l.Sorted (· < ·)) :
    l.headD 0 ≤ l.getLastD 0 := by
  cases l with
  | nil => exact absurd rfl h
  | cons x xs =>
    have hmem := getLastD_mem (l := x :: xs) (by simp) 0
    rcases List.mem_cons.mp hmem with h1 | h1
    · rw [h1]
      exact le_rfl
    · exact le_of_lt ((List.sorted_cons.mp hs).1 _ h1)

theorem cgAux_append (l : List Int) (a : Int) (i : Nat)
    (g : List (Int × List Nat)) :
    cgAux (l ++ [a]) i g = dictAppend (cgAux l i g) a (i + l.length) := by
  induction l generalizing i g with
  | nil => simp [cgAux]
  | cons b rest ih =>
    show cgAux (rest ++ [a]) (i + 1) (dictAppend g b i)
        = dictAppend (cgAux rest (i + 1) (dictAppend g b i)) a (i + (b :: rest).length)
    rw [ih]
    congr 1
    simp only [List.length_cons]
    omega

theorem clusterGroups_append (l : List Int) (a : Int) :
    clusterGroups (l ++ [a]) = dictAppend (clusterGroups l) a l.length := by
  unfold clusterGroups
  rw [cgAux_append, Nat.zero_add]

/-- The grouping loop of `main` maintains `GroupsInv` over the processed
prefix of the label array. -/
theorem clusterGroups_inv (labels : List Int) :
    GroupsInv labels (clusterGroups labels) := by
  induction labels using List.reverseRecOn with
  | nil =>
    refine ⟨by simp [clusterGroups, cgAux], by simp [clusterGroups, cgAux],
      ?_, by simp [clusterGroups, cgAux]⟩
    intro i a h
    simp at h
  | append_singleton l a ih =>
    obtain ⟨hnd, hgroups, hcomp, hheads⟩ := ih
    rw [clusterGroups_append]
    have hbound : ∀ p ∈ clusterGroups l, ∀ i ∈ p.2, i < l.length := by
      intro p hp i hi
      have hsome := (hgroups p hp).2.2 i hi
      by_contra hlt
      push_neg at hlt
      rw [List.get?_eq_none.mpr hlt] at hsome
      cases hsome
    have hget_old : ∀ i a2, i < l.length →
        (l.get? i = some a2 ↔ (l ++ [a]).get? i = some a2) := by
      intro i a2 hi
      rw [List.get?_append hi]
    by_cases hex : (clusterGroups l).any (fun p => p.1 == a)
    · -- the label already has a dict entry: its index list gets `l.length`
      rw [dictAppend, if_pos hex]
      obtain ⟨p0, hp0, hp0a⟩ := List.any_eq_true.mp hex
      have hp0a : p0.1 = a := by simpa using hp0a
      have hfst : ∀ p : Int × List Nat,
          (if p.1 = a then (p.1, p.2 ++ [l.length]) else p).1 = p.1 := by
        intro p
        by_cases h : p.1 = a <;> simp [h]
      refine ⟨?_, ?_, ?_, ?_⟩
      · rw [List.map_map]
        rw [show (Prod.fst ∘ fun p : Int × List Nat =>
            if p.1 = a then (p.1, p.2 ++ [l.length]) else p)
            = fun p : Int × List Nat => p.1 from by funext p; exact hfst p]
        exact hnd
      · rintro p' hp'
        obtain ⟨p, hp, rfl⟩ := List.mem_map.mp hp'
        by_cases h : p.1 = a
        · rw [if_pos h]
          obtain ⟨hne, hsort, hmem⟩ := hgroups p hp
          refine ⟨by simp, sorted_append_singleton hsort (hbound p hp), ?_⟩
          intro i hi
          rcases List.mem_append.mp hi with hiold | hinew
          · rw [← hget_old i p.1 (hbound p hp i hiold)]
            exact hmem i hiold
          · rw [List.mem_singleton.mp hinew, List.get?_concat_length, h]
        · rw [if_neg h]
          obtain ⟨hne, hsort, hmem⟩ := hgroups p hp
          refine ⟨hne, hsort, ?_⟩
          intro i hi
          rw [← hget_old i p.1 (hbound p hp i hi)]
          exact hmem i hi
      · intro i b hib
        have hilen : i < (l ++ [a]).length := by
          by_contra hlt
          push_neg at hlt
          rw [List.get?_eq_none.mpr hlt] at hib
          cases hib
        rw [List.length_append, List.length_singleton] at hilen
        by_cases hi : i < l.length
        · rw [← hget_old i b hi] at hib
          obtain ⟨p, hp, hpb, hip⟩ := hcomp i b hib
          refine ⟨if p.1 = a then (p.1, p.2 ++ [l.length]) else p,
            List.mem_map.mpr ⟨p, hp, rfl⟩, ?_, ?_⟩
          · rw [hfst p]
            exact hpb
          · by_cases h : p.1 = a
            · rw [if_pos h]
              exact List.mem_append_left _ hip
            · rw [if_neg h]
              exact hip
        · have hieq : i = l.length := by omega
          subst hieq
          rw [List.get?_concat_length] at hib
          have hba : b = a := (Option.some_inj.mp hib).symm
          subst hba
          refine ⟨(p0.1, p0.2 ++ [l.length]),
            List.mem_map.mpr ⟨p0, hp0, by rw [if_pos hp0a]⟩, hp0a, ?_⟩
          exact List.mem_append_right _ (List.mem_singleton.mpr rfl)
      · rw [List.pairwise_map]
        apply hheads.imp_of_mem
        intro p q hp hq hlt
        have hph : (if p.1 = a then (p.1, p.2 ++ [l.length]) else p).2.headD 0
            = p.2.headD 0 := by
          by_cases h : p.1 = a
          · rw [if_pos h]
            exact headD_append_of_ne_nil (hgroups p hp).1 _ _
          · rw [if_neg h]
        have hqh : (if q.1 = a then (q.1, q.2 ++ [l.length]) else q).2.headD 0
            = q.2.headD 0 := by
          by_cases h : q.1 = a
          · rw [if_pos h]
            exact headD_append_of_ne_nil (hgroups q hq).1 _ _
          · rw [if_neg h]
        rw [hph, hqh]
        exact hlt
    · -- the label is new: a fresh singleton entry is appended
      rw [dictAppend, if_neg hex]
      have hnotin : a ∉ (clusterGroups l).map Prod.fst := by
        intro hmem
        obtain ⟨p, hp, hpa⟩ := List.mem_map.mp hmem
        exact absurd (List.any_eq_true.mpr ⟨p, hp, by simp [hpa]⟩) hex
      refine ⟨?_, ?_, ?_, ?_⟩
      · rw [List.map_append]
        rw [List.nodup_append]
        exact ⟨hnd, List.nodup_singleton _,
          by simpa [List.disjoint_singleton] using hnotin⟩
      · intro p' hp'
        rcases List.mem_append.mp hp' with hp | hp
        · obtain ⟨hne, hsort, hmem⟩ := hgroups p' hp
          refine ⟨hne, hsort, ?_⟩
          intro i hi
          rw [← hget_old i p'.1 (hbound p' hp i hi)]
          exact hmem i hi
        · rw [List.mem_singleton.mp hp]
          exact ⟨by simp, List.sorted_singleton _,
            by intro i hi; rw [List.mem_singleton.mp hi, List.get?_concat_length]⟩
      · intro i b hib
        have hilen : i < (l ++ [a]).length := by
          by_contra hlt
          push_neg at hlt
          rw [List.get?_eq_none.mpr hlt] at hib
          cases hib
        rw [List.length_append, List.length_singleton] at hilen
        by_cases hi : i < l.length
        · rw [← hget_old i b hi] at hib
          obtain ⟨p, hp, hpb, hip⟩ := hcomp i b hib
          exact ⟨p, List.mem_append_left _ hp, hpb, hip⟩
        · have hieq : i = l.length := by omega
          subst hieq
          rw [List.get?_concat_length] at hib
          have hba : b = a := (Option.some_inj.mp hib).symm
          subst hba
          exact ⟨(b, [l.length]), List.mem_append_right _ (List.mem_singleton.mpr rfl),
            rfl, List.mem_singleton.mpr rfl⟩
      · rw [List.pairwise_append]
        refine ⟨hheads, List.pairwise_singleton _ _, ?_⟩
        intro p hp q hq
        rw [List.mem_singleton.mp hq]
        exact hbound p hp _ (headD_mem (hgroups p hp).1 0)

theorem clusterGroups_entry_unique (labels : List Int) {p q : Int × List Nat}
    (hp : p ∈ clusterGroups labels) (hq : q ∈ clusterGroups labels)
    (h : p.1 = q.1) : p = q :=
  List.inj_on_of_nodup_map (clusterGroups_inv labels).1 hp hq h

/-- A group's index list holds exactly the positions carrying its label. -/
theorem mem_group_iff (labels : List Int) {p : Int × List Nat}
    (hp : p ∈ clusterGroups labels) (i : Nat) :
    i ∈ p.2 ↔ labels.get? i = some p.1 := by
  constructor
  · exact fun h => ((clusterGroups_inv labels).2.1 p hp).2.2 i h
  · intro h
    obtain ⟨q, hq, hqa, hiq⟩ := (clusterGroups_inv labels).2.2.1 i p.1 h
    have heq : q = p := clusterGroups_entry_unique labels hq hp hqa
    rwa [heq] at hiq

theorem label_mem_keys (labels : List Int) {a : Int} (h : a ∈ labels) :
    ∃ p ∈ clusterGroups labels, p.1 = a := by
  obtain ⟨n, hn⟩ := List.mem_iff_get?.mp h
  obtain ⟨p, hp, hpa, _⟩ := (clusterGroups_inv labels).2.2.1 n a hn
  exact ⟨p, hp, hpa⟩

theorem filterMap_segments (ts : List ℚ) (G : List (Int × List Nat)) :
    (G.filterMap (fun g => if g.1 = -1 then none
      else some (⟨g.1, ts.getD (g.2.headD 0) 0,
        ts.getD (g.2.getLastD 0) 0, g.2⟩ : Segment)))
      = (G.filter (fun g => g.1 != -1)).map (segOf ts) := by
  induction G with
  | nil => rfl
  | cons p rest ih =>
    by_cases h : p.1 = -1
    · rw [List.filterMap_cons_none (by rw [if_pos h]),
        List.filter_cons_of_neg (by simp [h]), ih]
    · rw [List.filterMap_cons_some (b := segOf ts p) (by rw [if_neg h]; rfl),
        List.filter_cons_of_pos (by simp [h]), List.map_cons, ih]

theorem makeSegments_eq (labels : List Int) (ts : List ℚ) :
    makeSegments labels ts =
      ((clusterGroups labels).filter (fun g => g.1 != -1)).map (segOf ts) :=
  filterMap_segments ts (clusterGroups labels)

theorem mem_makeSegments {labels : List Int} {ts : List ℚ} {s : Segment} :
    s ∈ makeSegments labels ts ↔
      ∃ g ∈ clusterGroups labels, g.1 ≠ -1 ∧ s = segOf ts g := by
  rw [makeSegments_eq]
  constructor
  · intro h
    obtain ⟨g, hg, rfl⟩ := List.mem_map.mp h
    have hmem := List.mem_filter.mp hg
    exact ⟨g, hmem.1, by simpa using hmem.2, rfl⟩
  · rintro ⟨g, hg, hne, rfl⟩
    exact List.mem_map.mpr ⟨g, List.mem_filter.mpr ⟨hg, by simpa using hne⟩, rfl⟩

theorem countP_groups_key (labels : List Int) {lab : Int} (hmem : lab ∈ labels) :
    (clusterGroups labels).countP (fun g => g.1 == lab) = 1 := by
  have h1 : (clusterGroups labels).countP (fun g => g.1 == lab)
      = ((clusterGroups labels).map Prod.fst).count lab := by
    rw [List.count_eq_countP, List.countP_map]
    rfl
  rw [h1]
  apply List.count_eq_one_of_mem (clusterGroups_inv labels).1
  obtain ⟨p, hp, hpa⟩ := label_mem_keys labels hmem
  exact List.mem_map.mpr ⟨p, hp, hpa⟩

/-- C1 counterexample: for labels `[0, -1, 0]` (label `0` in two contiguous
runs separated by a noise position) the code emits a *single* Segment whose
frame indices `[0, 2]` span the gap, not one Segment per run. -/
theorem run_splitting_cex :
    makeSegments [0, -1, 0] [0, 1, 2] = [⟨0, 0, 2, [0, 2]⟩] ∧
    (makeSegments [0, -1, 0] [0, 1, 2]).length ≠ 2 := by decide

/-- C1 amended: the reconstruction emits exactly one Segment per distinct
non-noise label (not per contiguous run), and that Segment's frame indices
are all positions carrying the label — temporally separated runs of one
label are merged into this single Segment. -/
theorem one_segment_per_label (labels : List Int) (ts : List ℚ) (lab : Int)
    (h1 : lab ≠ -1) (h2 : lab ∈ labels) :
    (makeSegments labels ts).countP (fun s => s.label == lab) = 1 ∧
    ∀ s ∈ makeSegments labels ts, s.label = lab →
      ∀ i, i ∈ s.frame_indices ↔ labels.get? i = some lab := by
  constructor
  · rw [makeSegments_eq, List.countP_map,
      show ((fun s => s.label == lab) ∘ segOf ts)
        = fun g : Int × List Nat => g.1 == lab from rfl,
      List.countP_filter]
    rw [List.countP_congr (q := fun g : Int × List Nat => g.1 == lab) ?_]
    · exact countP_groups_key labels h2
    · intro g _
      by_cases h : g.1 = lab
      · simp [h, h1]
      · simp [h]
  · intro s hs hlab i
    obtain ⟨g, hg, hne, rfl⟩ := mem_makeSegments.mp hs
    have hfst : g.1 = lab := hlab
    rw [show (segOf ts g).frame_indices = g.2 from rfl, mem_group_iff labels hg, hfst]

/-- Witness for the amended C1 at a concrete input. -/
theorem one_segment_per_label_witness :
    (5 : Int) ≠ -1 ∧ (5 : Int) ∈ ([5, -1, 5] : List Int) ∧
    ((makeSegments [5, -1, 5] [0, 1, 2]).countP (fun s => s.label == 5) = 1 ∧
     ∀ s ∈ makeSegments [5, -1, 5] [0, 1, 2], s.label = 5 →
       ∀ i, i ∈ s.frame_indices ↔ ([5, -1, 5] : List Int).get? i = some 5) :=
  ⟨by decide, by decide,
    one_segment_per_label [5, -1, 5] [0, 1, 2] 5 (by decide) (by decide)⟩

/-- C4 counterexample: for labels `[0, 1, 0]` the two emitted Segments have
frame-index ranges `[0, 2]` and `[1, 1]`, whose closed index intervals
overlap — the claimed pairwise disjointness of frame-index ranges fails. -/
theorem segment_ranges_overlap_cex :
    ¬ segRangesDisjoint (makeSegments [0, 1, 0] [0, 1, 2]) := by decide

/-- C4 amended: each non-noise position lies in exactly one Segment, no
Segment contains a noise position, the Segments' *sets of contained frame
indices* (not their index intervals) are pairwise disjoint, and their union
is exactly the set of non-noise positions. -/
theorem segment_partition (labels : List Int) (ts : List ℚ) :
    (∀ i a, labels.get? i = some a → a ≠ -1 →
      (makeSegments labels ts).countP (fun s => s.frame_indices.contains i) = 1) ∧
    (∀ s ∈ makeSegments labels ts, s.label ≠ -1 ∧
      ∀ i ∈ s.frame_indices, labels.get? i = some s.label) ∧
    ((makeSegments labels ts).Pairwise
      (fun s t => ∀ i, i ∈ s.frame_indices → i ∉ t.frame_indices)) ∧
    (∀ i, (∃ s ∈ makeSegments labels ts, i ∈ s.frame_indices) ↔
      ∃ a, labels.get? i = some a ∧ a ≠ -1) := by
  refine ⟨?_, ?_, ?_, ?_⟩
  · intro i a hia hne
    rw [makeSegments_eq, List.countP_map,
      show ((fun s => s.frame_indices.contains i) ∘ segOf ts)
        = fun g : Int × List Nat => g.2.contains i from rfl,
      List.countP_filter]
    rw [List.countP_congr (q := fun g : Int × List Nat => g.1 == a) ?_]
    · exact countP_groups_key labels (List.mem_iff_get?.mpr ⟨i, hia⟩)
    · intro g hg
      constructor
      · intro hcap
        obtain ⟨hc1, hc2⟩ := Bool.and_eq_true_iff.mp hcap
        obtain ⟨i2, hi2, hbeq⟩ := List.contains_iff_exists_mem_beq.mp hc1
        have hieq : i = i2 := by simpa using hbeq
        subst hieq
        have hsome := (mem_group_iff labels hg i).mp hi2
        rw [hia] at hsome
        simp [Option.some_inj.mp hsome]
      · intro hkey
        have hkey2 : g.1 = a := by simpa using hkey
        have hin : i ∈ g.2 := (mem_group_iff labels hg i).mpr (by rw [hkey2]; exact hia)
        rw [Bool.and_eq_true_iff]
        constructor
        · exact List.contains_iff_exists_mem_beq.mpr ⟨i, hin, by simp⟩
        · simp [hkey2, hne]
  · intro s hs
    obtain ⟨g, hg, hne, rfl⟩ := mem_makeSegments.mp hs
    exact ⟨hne, fun i hi => (mem_group_iff labels hg i).mp hi⟩
  · rw [makeSegments_eq, List.pairwise_map]
    have hne : (clusterGroups labels).Pairwise (fun p q => p.1 ≠ q.1) :=
      List.pairwise_map.mp (clusterGroups_inv labels).1
    have hfil : ((clusterGroups labels).filter (fun g => g.1 != -1)).Pairwise
        (fun p q => p.1 ≠ q.1) :=
      List.Pairwise.sublist (List.filter_sublist _) hne
    apply hfil.imp_of_mem
    intro p q hp hq hpq i hip hiq
    have hp2 : p ∈ clusterGroups labels := (List.mem_filter.mp hp).1
    have hq2 : q ∈ clusterGroups labels := (List.mem_filter.mp hq).1
    have h1 := (mem_group_iff labels hp2 i).mp hip
    have h2 := (mem_group_iff labels hq2 i).mp hiq
    rw [h1] at h2
    exact hpq (Option.some_inj.mp h2)
  · intro i
    constructor
    · rintro ⟨s, hs, hi⟩
      obtain ⟨g, hg, hne, rfl⟩ := mem_makeSegments.mp hs
      exact ⟨g.1, (mem_group_iff labels hg i).mp hi, hne⟩
    · rintro ⟨a, hia, hne⟩
      obtain ⟨p, hp, hpa, hip⟩ := (clusterGroups_inv labels).2.2.1 i a hia
      refine ⟨segOf ts p, mem_makeSegments.mpr ⟨p, hp, by rw [hpa]; exact hne, rfl⟩, ?_⟩
      exact hip

theorem sorted_getD_mono {ts : List ℚ} (hts : ts.Sorted (· ≤ ·)) {i j : Nat}
    (hij : i ≤ j) (hj : j < ts.length) : ts.getD i 0 ≤ ts.getD j 0 := by
  have hi : i < ts.length := lt_of_le_of_lt hij hj
  rw [List.getD_eq_get?, List.getD_eq_get?, List.get?_eq_get hi, List.get?_eq_get hj,
    Option.getD_some, Option.getD_some]
  exact hts.rel_get_of_le (Fin.mk_le_mk.mpr hij)

/-- Bound on group indices: every recorded frame index is a valid position
of the label array. -/
theorem group_indices_bounded (labels : List Int) {p : Int × List Nat}
    (hp : p ∈ clusterGroups labels) : ∀ i ∈ p.2, i < labels.length := by
  intro i hi
  have hsome := ((clusterGroups_inv labels).2.1 p hp).2.2 i hi
  by_contra hlt
  push_neg at hlt
  rw [List.get?_eq_none.mpr hlt] at hsome
  cases hsome

/-- C7: with non-decreasing timestamps, the emitted segment list is ordered
by non-decreasing start timestamp. -/
theorem segments_sorted_by_start (labels : List Int) (ts : List ℚ)
    (hts : ts.Sorted (· ≤ ·)) (hlen : labels.length ≤ ts.length) :
    (makeSegments labels ts).Pairwise (fun s t => s.start_time ≤ t.start_time) := by
  rw [makeSegments_eq, List.pairwise_map]
  have hheads : ((clusterGroups labels).filter (fun g => g.1 != -1)).Pairwise
      (fun p q => p.2.headD 0 < q.2.headD 0) :=
    List.Pairwise.sublist (List.filter_sublist _) (clusterGroups_inv labels).2.2.2
  apply hheads.imp_of_mem
  intro p q hp hq hlt
  have hq2 : q ∈ clusterGroups labels := (List.mem_filter.mp hq).1
  have hqb : q.2.headD 0 < labels.length :=
    group_indices_bounded labels hq2 _
      (headD_mem ((clusterGroups_inv labels).2.1 q hq2).1 0)
  exact sorted_getD_mono hts (le_of_lt hlt) (lt_of_lt_of_le hqb hlen)

/-- Witness for C7 at a concrete input. -/
theorem segments_sorted_by_start_witness :
    List.Sorted (· ≤ ·) ([0, 1, 2] : List ℚ) ∧
    (makeSegments [3, -1, 2] [0, 1, 2]).Pairwise
      (fun s t => s.start_time ≤ t.start_time) :=
  ⟨by decide, segments_sorted_by_start [3, -1, 2] [0, 1, 2] (by decide) (by decide)⟩

/-- C10: every emitted Segment's frame-index list is strictly increasing,
and with non-decreasing timestamps its start timestamp is at most its end
timestamp. -/
theorem segment_indices_increasing (labels : List Int) (ts : List ℚ)
    (hts : ts.Sorted (· ≤ ·)) (hlen : labels.length ≤ ts.length) :
    ∀ s ∈ makeSegments labels ts,
      s.frame_indices.Sorted (· < ·) ∧ s.start_time ≤ s.end_time := by
  intro s hs
  obtain ⟨g, hg, hne, rfl⟩ := mem_makeSegments.mp hs
  obtain ⟨hnonempty, hsort, _⟩ := (clusterGroups_inv labels).2.1 g hg
  refine ⟨hsort, ?_⟩
  have h1 : g.2.headD 0 ≤ g.2.getLastD 0 := headD_le_getLastD hnonempty hsort
  have h2 : g.2.getLastD 0 < labels.length :=
    group_indices_bounded labels hg _ (getLastD_mem hnonempty 0)
  exact sorted_getD_mono hts h1 (lt_of_lt_of_le h2 hlen)

/-- Witness for C10 at a concrete input. -/
theorem segment_indices_increasing_witness :
    List.Sorted (· ≤ ·) ([0, 1, 2] : List ℚ) ∧
    ((Segment.mk 0 0 2 [0, 2]).frame_indices.Sorted (· < ·) ∧
     (Segment.mk 0 0 2 [0, 2]).start_time ≤ (Segment.mk 0 0 2 [0, 2]).end_time) :=
  ⟨by decide,
    segment_indices_increasing [0, -1, 0] [0, 1, 2] (by decide) (by decide)
      ⟨0, 0, 2, [0, 2]⟩ (by decide)⟩

end JanusClustering
